import Mathlib

/-!
Verification of the Monte Carlo sampling notebooks (inversion sampling and
importance sampling) of the MonteCarlo_astro_course repository.

The Python functions are shallowly embedded over exact rationals:

* arrays become `List ℚ`;
* the global NumPy random stream is made explicit: a call that internally
  draws `n` values from `np.random.uniform(0, 1, n)` receives a list `us` of
  unit-interval draws and consumes its first `n` entries, and a call to
  `np.random.uniform(a, b, n)` maps each unit draw `u` to `a + (b - a) * u`;
* `np.interp` is embedded by `interpP` below, following the compiled NumPy
  routine: clamping outside the table, an exact-knot shortcut, and linear
  interpolation on the bracketing interval otherwise;
* places where NumPy raises an exception are modelled with `Except`;
  IEEE division by zero does not raise in NumPy (it yields `inf`/`NaN` with a
  warning), so it is modelled by Lean's total rational division, which also
  raises nothing.
-/

namespace MCAstro

/-- Running prefix sums starting from an accumulator; `cumsumAux 0` models
`np.cumsum` on a one-dimensional array. -/
def cumsumAux (acc : ℚ) : List ℚ → List ℚ
  | [] => []
  | a :: t => (acc + a) :: cumsumAux (acc + a) t

/-- Models `np.cumsum(y)` for a 1-d array `y`. -/
def cumsum (ys : List ℚ) : List ℚ := cumsumAux 0 ys

/-- Last element of a list with a default; models the NumPy indexing `a[-1]`
(total, with an explicit fallback for the empty list). -/
def lastD {α : Type} (d : α) : List α → α
  | [] => d
  | [a] => a
  | _ :: b :: t => lastD d (b :: t)

/-- Models `np.amin` on a 1-d array (0 as the junk value on the empty array,
where NumPy raises instead; the error case is handled in the `Except`
variants below). -/
def amin : List ℚ → ℚ
  | [] => 0
  | a :: t => t.foldl min a

/-- Models `np.amax` on a 1-d array. -/
def amax : List ℚ → ℚ
  | [] => 0
  | a :: t => t.foldl max a

/-- One evaluation point of `np.interp u xp fp`, on the zipped table
`(xp_i, fp_i)`.  Follows NumPy's compiled `arr_interp`: a query below the
first knot yields the first `fp` value, a query at or beyond the last knot
yields the last `fp` value, a query equal to a knot yields that knot's `fp`
value (largest matching index when knots repeat), and otherwise the two
bracketing knots are linearly interpolated. -/
def interpP (u : ℚ) : List (ℚ × ℚ) → ℚ
  | [] => 0
  | [p] => p.2
  | p :: q :: l =>
    if u < p.1 then p.2
    else if u < q.1 then
      if u = p.1 then p.2
      else p.2 + (q.2 - p.2) / (q.1 - p.1) * (u - p.1)
    else interpP u (q :: l)

/-- The normalised cumulative table of `inversionSampling`:
`y1 = np.cumsum(y)` followed by the in-place `y1 /= y1[-1]`. -/
def normCDF (y : List ℚ) : List ℚ :=
  (cumsum y).map (fun a => a / lastD 0 (cumsum y))

/-- The inverse lookup used by `inversionSampling`: `np.interp(u, y1, x)`
with the roles of abscissa and ordinate swapped. -/
def invMap (x y : List ℚ) (u : ℚ) : ℚ := interpP u ((normCDF y).zip x)

/-- `inversionSampling(x, y, n)` from the inversion-sampling notebook:
build the normalised cumulative table, map `n` uniform draws through the
inverted interpolation, and return the samples sorted ascending (the
`np.argsort` / fancy-indexing step). -/
def inversionSampling (x y : List ℚ) (n : ℕ) (us : List ℚ) : List ℚ :=
  List.insertionSort (fun a b => a ≤ b) ((us.take n).map (invMap x y))

/-- Trapezoidal quadrature on a zipped table `(x_i, w_i)`; models
`scipy.integrate.trapz(w, x = x)`. -/
def trapzP : List (ℚ × ℚ) → ℚ
  | [] => 0
  | [_] => 0
  | p :: q :: l => (q.1 - p.1) * (p.2 + q.2) / 2 + trapzP (q :: l)

/-- `importanceSampling(x, f, w, n)` from the four-argument importance
sampling notebook: trapezoidal normalisation of `w`, `n` uniform draws over
`[amin x, amax x]`, and weights `norm * interp(f) / interp(w)`. -/
def importanceSampling (x f w : List ℚ) (n : ℕ) (us : List ℚ) :
    List ℚ × List ℚ :=
  let xmin := amin x
  let xmax := amax x
  let norm := trapzP (x.zip w)
  let xsample := (us.take n).map (fun u => xmin + (xmax - xmin) * u)
  let weights :=
    xsample.map (fun s => norm * interpP s (x.zip f) / interpP s (x.zip w))
  (xsample, weights)

set_option linter.unusedVariables false in
/-- `importanceSampling(x, y, f, w, n)` from the five-argument importance
sampling notebook.  Its weights are
`norm * np.interp(xsample, x, y * w) / np.interp(xsample, x, w)`:
the argument `f` never occurs in the body. -/
def importanceSampling5 (x y f w : List ℚ) (n : ℕ) (us : List ℚ) :
    List ℚ × List ℚ :=
  let xmin := amin x
  let xmax := amax x
  let norm := trapzP (x.zip w)
  let xsample := (us.take n).map (fun u => xmin + (xmax - xmin) * u)
  let yw := (y.zip w).map (fun p => p.1 * p.2)
  let weights :=
    xsample.map (fun s => norm * interpP s (x.zip yw) / interpP s (x.zip w))
  (xsample, weights)

/-- The exceptions NumPy/SciPy actually raise on the code paths of the two
samplers. -/
inductive NumpyError : Type
  | valueError
  | indexError
deriving DecidableEq

/-- `inversionSampling` with the genuine NumPy failure points made explicit,
in the evaluation order of the Python body:
`y1[-1]` raises `IndexError` on an empty array; `np.random.uniform(0, 1, n)`
raises `ValueError` for negative `n`; `np.interp(ysample, y1, x)` raises
`ValueError` when `len(y1) != len(x)`.  The in-place division `y1 /= y1[-1]`
never raises (with `y1[-1] == 0` NumPy silently produces `NaN` entries,
modelled by total rational division). -/
def inversionSamplingE (x y : List ℚ) (n : ℤ) (us : List ℚ) :
    Except NumpyError (List ℚ) :=
  if cumsum y = [] then .error .indexError
  else if n < 0 then .error .valueError
  else if (cumsum y).length ≠ x.length then .error .valueError
  else .ok (inversionSampling x y n.toNat us)

/-- The four-argument `importanceSampling` with the genuine NumPy/SciPy
failure points made explicit, in the evaluation order of the Python body:
`np.amin(x)` raises `ValueError` on an empty array;
`scipy.integrate.trapz(w, x = x)` raises `ValueError` on a shape mismatch;
`np.random.uniform(xmin, xmax, n)` raises `ValueError` for negative `n`;
`np.interp(xsample, x, f)` raises `ValueError` when `len(f) != len(x)`.
The weight division never raises (zero denominators silently yield
`inf`/`NaN` in NumPy, total division here). -/
def importanceSamplingE (x f w : List ℚ) (n : ℤ) (us : List ℚ) :
    Except NumpyError (List ℚ × List ℚ) :=
  if x = [] then .error .valueError
  else if w.length ≠ x.length then .error .valueError
  else if n < 0 then .error .valueError
  else if f.length ≠ x.length then .error .valueError
  else .ok (importanceSampling x f w n.toNat us)

/-- Buffer-explicit rendering of `inversionSampling`, for the frame
property: the triple returned is (result, final contents of the caller's
`x` buffer, final contents of the caller's `y` buffer).  Per NumPy
semantics every step allocates: `np.cumsum(y)` returns a fresh array, the
in-place `y1 /= y1[-1]` mutates only that fresh array, `np.random.uniform`
and `np.interp` return fresh arrays, and fancy indexing `xsample[idx]`
copies; so the caller's buffers are threaded through untouched. -/
def inversionSamplingBuffers (x y : List ℚ) (n : ℕ) (us : List ℚ) :
    List ℚ × List ℚ × List ℚ :=
  let y1 := cumsum y
  let y1n := y1.map (fun a => a / lastD 0 y1)
  let ysample := us.take n
  let xsample := ysample.map (fun u => interpP u (y1n.zip x))
  let xsorted := List.insertionSort (fun a b => a ≤ b) xsample
  (xsorted, x, y)

/-- Trapezoidal rule written as in the specification: the sum over
consecutive grid intervals of interval width times the mean of the two
endpoint values. -/
def trapezoidRule (x w : List ℚ) : ℚ :=
  (List.zipWith (fun pa pb => (pa.2 - pa.1) * (pb.1 + pb.2) / 2)
    (x.zip x.tail) (w.zip w.tail)).sum

/-- The importance sampler as the specification words it: compute
`Z = ∫ w dx` by the trapezoidal rule, draw `n` values uniformly over
`[min x, max x]`, and pair each raw draw with the weight
`Z * f(x_k) / w(x_k)` obtained by linear interpolation of the tables. -/
def importanceSampleSpec (x f w : List ℚ) (n : ℕ) (us : List ℚ) :
    List ℚ × List ℚ :=
  let lo := (x.min?).getD 0
  let hi := (x.max?).getD 0
  let xs := (us.take n).map (fun u => lo + (hi - lo) * u)
  (xs, xs.map (fun s =>
    trapezoidRule x w * interpP s (x.zip f) / interpP s (x.zip w)))

/-- The default of `lastD` is irrelevant on nonempty lists. -/
theorem lastD_congr {α : Type} (d1 d2 : α) :
    ∀ l : List α, l ≠ [] → lastD d1 l = lastD d2 l
  | [], h => absurd rfl h
  | [_], _ => rfl
  | _ :: b :: t, _ => lastD_congr d1 d2 (b :: t) (by simp)

/-- `lastD` of a mapped list is the map of `lastD`. -/
theorem lastD_map (f : ℚ → ℚ) :
    ∀ (l : List ℚ) (d : ℚ), lastD (f d) (l.map f) = f (lastD d l)
  | [], _ => rfl
  | [_], _ => rfl
  | _ :: b :: t, d => lastD_map f (b :: t) d

/-- `lastD` of a zip of equal-length nonempty lists is the pair of the
componentwise `lastD` values. -/
theorem lastD_zip :
    ∀ (as bs : List ℚ), as.length = bs.length → as ≠ [] →
      lastD ((0 : ℚ), (0 : ℚ)) (as.zip bs) = (lastD 0 as, lastD 0 bs)
  | [], _, _, hne => absurd rfl hne
  | _ :: _, [], h, _ => by simp at h
  | [_], _ :: _ :: _, h, _ => by simp at h
  | [_], [_], _, _ => rfl
  | _ :: _ :: _, [_], h, _ => by simp at h
  | a :: a2 :: as, b :: b2 :: bs, h, _ => by
    have ih := lastD_zip (a2 :: as) (b2 :: bs) (by simpa using h) (by simp)
    simpa [lastD] using ih

/-- In a `≤`-sorted list every element is at most the last element. -/
theorem sorted_le_lastD :
    ∀ l : List ℚ, List.Sorted (· ≤ ·) l → ∀ v ∈ l, v ≤ lastD 0 l
  | [], _, _, hv => absurd hv (by simp)
  | [a], _, v, hv => by
    simp only [List.mem_singleton] at hv
    simp [hv, lastD]
  | a :: b :: t, hl, v, hv => by
    obtain ⟨ha, ht⟩ := List.sorted_cons.mp hl
    have hlast : lastD 0 (a :: b :: t) = lastD 0 (b :: t) := rfl
    rcases List.mem_cons.mp hv with rfl | hv2
    · have h1 : v ≤ b := ha b (by simp)
      have h2 := sorted_le_lastD (b :: t) ht b (by simp)
      rw [hlast]; exact le_trans h1 h2
    · rw [hlast]; exact sorted_le_lastD (b :: t) ht v hv2

/-- Folding `min` only ever decreases the accumulator. -/
theorem foldl_min_le_init :
    ∀ (t : List ℚ) (b : ℚ), t.foldl min b ≤ b
  | [], _ => le_refl _
  | c :: t, b => le_trans (foldl_min_le_init t (min b c)) (min_le_left b c)

/-- The fold of `min` is below every list element. -/
theorem foldl_min_le_mem :
    ∀ (t : List ℚ) (b a : ℚ), a ∈ t → t.foldl min b ≤ a
  | [], _, _, ha => absurd ha (by simp)
  | c :: t, b, a, ha => by
    rcases List.mem_cons.mp ha with rfl | h2
    · exact le_trans (foldl_min_le_init t (min b a)) (min_le_right b a)
    · exact foldl_min_le_mem t (min b c) a h2

/-- Folding `max` only ever increases the accumulator. -/
theorem le_foldl_max_init :
    ∀ (t : List ℚ) (b : ℚ), b ≤ t.foldl max b
  | [], _ => le_refl _
  | c :: t, b => le_trans (le_max_left b c) (le_foldl_max_init t (max b c))

/-- The fold of `max` is above every list element. -/
theorem mem_le_foldl_max :
    ∀ (t : List ℚ) (b a : ℚ), a ∈ t → a ≤ t.foldl max b
  | [], _, _, ha => absurd ha (by simp)
  | c :: t, b, a, ha => by
    rcases List.mem_cons.mp ha with rfl | h2
    · exact le_trans (le_max_right b a) (le_foldl_max_init t (max b a))
    · exact mem_le_foldl_max t (max b c) a h2

/-- `amin` bounds every element of the array from below. -/
theorem amin_le (l : List ℚ) (a : ℚ) (ha : a ∈ l) : amin l ≤ a := by
  cases l with
  | nil => cases ha
  | cons c t =>
    rcases List.mem_cons.mp ha with rfl | h2
    · exact foldl_min_le_init t a
    · exact foldl_min_le_mem t c a h2

/-- `amax` bounds every element of the array from above. -/
theorem le_amax (l : List ℚ) (a : ℚ) (ha : a ∈ l) : a ≤ amax l := by
  cases l with
  | nil => cases ha
  | cons c t =>
    rcases List.mem_cons.mp ha with rfl | h2
    · exact le_foldl_max_init t a
    · exact mem_le_foldl_max t c a h2

/-- `cumsumAux` preserves the length of the list. -/
theorem cumsumAux_length :
    ∀ (acc : ℚ) (ys : List ℚ), (cumsumAux acc ys).length = ys.length
  | _, [] => rfl
  | acc, a :: t => by simp [cumsumAux, cumsumAux_length (acc + a) t]

/-- `cumsum` preserves the length of the array, like `np.cumsum`. -/
theorem cumsum_length (ys : List ℚ) : (cumsum ys).length = ys.length :=
  cumsumAux_length 0 ys

/-- Every prefix sum of a nonnegative list is at least the accumulator. -/
theorem cumsumAux_ge :
    ∀ (acc : ℚ) (ys : List ℚ), (∀ a ∈ ys, 0 ≤ a) →
      ∀ b ∈ cumsumAux acc ys, acc ≤ b
  | _, [], _, _, hb => absurd hb (by simp [cumsumAux])
  | acc, a :: t, hy, b, hb => by
    have ha : 0 ≤ a := hy a (List.mem_cons_self a t)
    rcases List.mem_cons.mp hb with rfl | hb2
    · linarith
    · have := cumsumAux_ge (acc + a) t (fun c hc => hy c (by simp [hc])) b hb2
      linarith

/-- Prefix sums of a nonnegative list are non-decreasing. -/
theorem cumsumAux_sorted :
    ∀ (acc : ℚ) (ys : List ℚ), (∀ a ∈ ys, 0 ≤ a) →
      List.Sorted (· ≤ ·) (cumsumAux acc ys)
  | _, [], _ => List.sorted_nil
  | acc, a :: t, hy => by
    have hrest : ∀ c ∈ t, (0 : ℚ) ≤ c := fun c hc => hy c (by simp [hc])
    refine List.sorted_cons.mpr ⟨?_, cumsumAux_sorted (acc + a) t hrest⟩
    intro b hb
    exact cumsumAux_ge (acc + a) t hrest b hb

/-- The last prefix sum is the accumulator plus the total sum. -/
theorem cumsumAux_lastD :
    ∀ (acc : ℚ) (ys : List ℚ), lastD acc (cumsumAux acc ys) = acc + ys.sum
  | acc, [] => by simp [cumsumAux, lastD]
  | acc, [a] => by simp [cumsumAux, lastD]
  | acc, a :: b :: t => by
    have h1 := cumsumAux_lastD (acc + a) (b :: t)
    have hne : cumsumAux (acc + a) (b :: t) ≠ [] := by simp [cumsumAux]
    have h2 : lastD acc (cumsumAux acc (a :: b :: t)) =
        lastD acc (cumsumAux (acc + a) (b :: t)) := rfl
    rw [h2, lastD_congr acc (acc + a) _ hne, h1]
    simp only [List.sum_cons]
    ring

/-- The last entry of `np.cumsum(y)` is the total sum of `y`. -/
theorem cumsum_lastD (ys : List ℚ) : lastD 0 (cumsum ys) = ys.sum := by
  have := cumsumAux_lastD 0 ys
  simpa using this

/-- The normalised cumulative table has the length of `y`. -/
theorem normCDF_length (y : List ℚ) : (normCDF y).length = y.length := by
  simp [normCDF, cumsum_length]

/-- A list of nonnegative entries with nonzero sum has positive sum. -/
theorem sum_pos_of_nonneg (y : List ℚ) (hy : ∀ a ∈ y, 0 ≤ a)
    (hs : y.sum ≠ 0) : 0 < y.sum :=
  lt_of_le_of_ne (List.sum_nonneg hy) (Ne.symm hs)

/-- For nonnegative `y` with nonzero sum the normalised cumulative table is
non-decreasing. -/
theorem normCDF_sorted (y : List ℚ) (hy : ∀ a ∈ y, 0 ≤ a)
    (hs : y.sum ≠ 0) : List.Sorted (· ≤ ·) (normCDF y) := by
  have hpos : 0 < y.sum := sum_pos_of_nonneg y hy hs
  have hlast : lastD 0 (cumsum y) = y.sum := cumsum_lastD y
  have hsorted : List.Sorted (· ≤ ·) (cumsum y) := cumsumAux_sorted 0 y hy
  refine List.Pairwise.map _ ?_ hsorted
  intro a b hab
  rw [hlast]
  exact div_le_div_of_nonneg_right hab hpos.le

/-- For nonempty `y` with nonzero sum the last normalised entry is exactly
one. -/
theorem normCDF_lastD (y : List ℚ) (hyne : y ≠ []) (hs : y.sum ≠ 0) :
    lastD 0 (normCDF y) = 1 := by
  have hne : cumsum y ≠ [] := by
    intro h
    have := cumsum_length y
    rw [h] at this
    exact hyne (List.length_eq_zero.mp this.symm)
  have hmapne : normCDF y ≠ [] := by simp [normCDF, hne]
  have h1 : lastD 0 (normCDF y) =
      lastD ((0 : ℚ) / lastD 0 (cumsum y)) (normCDF y) :=
    lastD_congr _ _ _ hmapne
  have h2 : lastD ((0 : ℚ) / lastD 0 (cumsum y)) (normCDF y) =
      lastD 0 (cumsum y) / lastD 0 (cumsum y) := by
    simpa [normCDF] using lastD_map (fun a => a / lastD 0 (cumsum y)) (cumsum y) 0
  rw [h1, h2, cumsum_lastD]
  exact div_self hs

/-- A single interpolation query stays inside any band containing all
table ordinates: the clamped cases return a table value, and in the strict
interpolation branch the bracketing guards force a genuine convex
combination. -/
theorem interpP_mem_bounds (lo hi u : ℚ) :
    ∀ l : List (ℚ × ℚ), l ≠ [] → (∀ p ∈ l, lo ≤ p.2 ∧ p.2 ≤ hi) →
      lo ≤ interpP u l ∧ interpP u l ≤ hi
  | [], hne, _ => absurd rfl hne
  | [p], _, hb => by simpa [interpP] using hb p (by simp)
  | p :: q :: l, _, hb => by
    have hp := hb p (by simp)
    have hq := hb q (by simp)
    by_cases h1 : u < p.1
    · have he : interpP u (p :: q :: l) = p.2 := by
        simp only [interpP]
        rw [if_pos h1]
      rw [he]; exact hp
    · by_cases h2 : u < q.1
      · by_cases h3 : u = p.1
        · have he : interpP u (p :: q :: l) = p.2 := by
            simp only [interpP]
            rw [if_neg h1, if_pos h2, if_pos h3]
          rw [he]; exact hp
        · have hpu : p.1 < u := lt_of_le_of_ne (not_lt.mp h1) (Ne.symm h3)
          have hd : 0 < q.1 - p.1 := by linarith
          have he : interpP u (p :: q :: l) =
              (p.2 * (q.1 - p.1) + (q.2 - p.2) * (u - p.1)) / (q.1 - p.1) := by
            simp only [interpP]
            rw [if_neg h1, if_pos h2, if_neg h3]
            field_simp
          have hkey1 : lo * (q.1 - p.1) ≤
              p.2 * (q.1 - p.1) + (q.2 - p.2) * (u - p.1) := by
            nlinarith [mul_nonneg (by linarith : (0:ℚ) ≤ p.2 - lo)
                (by linarith : (0:ℚ) ≤ q.1 - u),
              mul_nonneg (by linarith : (0:ℚ) ≤ q.2 - lo)
                (by linarith : (0:ℚ) ≤ u - p.1)]
          have hkey2 : p.2 * (q.1 - p.1) + (q.2 - p.2) * (u - p.1) ≤
              hi * (q.1 - p.1) := by
            nlinarith [mul_nonneg (by linarith : (0:ℚ) ≤ hi - p.2)
                (by linarith : (0:ℚ) ≤ q.1 - u),
              mul_nonneg (by linarith : (0:ℚ) ≤ hi - q.2)
                (by linarith : (0:ℚ) ≤ u - p.1)]
          rw [he]
          constructor
          · rw [le_div_iff₀ hd]
            exact hkey1
          · rw [div_le_iff₀ hd]
            exact hkey2
      · have ih := interpP_mem_bounds lo hi u (q :: l) (by simp)
          (fun r hr => hb r (List.mem_cons_of_mem p hr))
        have he : interpP u (p :: q :: l) = interpP u (q :: l) := by
          simp only [interpP]
          rw [if_neg h1, if_neg h2]
        rw [he]; exact ih

/-- A query strictly above every knot is clamped to the last ordinate. -/
theorem interpP_gt (u : ℚ) :
    ∀ l : List (ℚ × ℚ), l ≠ [] → (∀ p ∈ l, p.1 < u) →
      interpP u l = (lastD (0, 0) l).2
  | [], hne, _ => absurd rfl hne
  | [p], _, _ => rfl
  | p :: q :: l, _, hb => by
    have h1 : ¬ u < p.1 := not_lt.mpr (le_of_lt (hb p (by simp)))
    have h2 : ¬ u < q.1 := not_lt.mpr (le_of_lt (hb q (by simp)))
    have ih := interpP_gt u (q :: l) (by simp)
      (fun r hr => hb r (List.mem_cons_of_mem p hr))
    simpa [interpP, h1, h2, lastD] using ih

/-- A query strictly below the first knot is clamped to the first ordinate. -/
theorem interpP_lt_head (u : ℚ) :
    ∀ l : List (ℚ × ℚ), l ≠ [] → u < (l.headD (0, 0)).1 →
      interpP u l = (l.headD (0, 0)).2
  | [], hne, _ => absurd rfl hne
  | [_], _, _ => rfl
  | p :: q :: l, _, hu => by
    have h1 : u < p.1 := by simpa using hu
    simp only [interpP]
    rw [if_pos h1]
    rfl

/-- The head of a zip of nonempty lists is the pair of heads. -/
theorem headD_zip :
    ∀ (as bs : List ℚ), as ≠ [] → bs ≠ [] →
      (as.zip bs).headD (0, 0) = (as.headD 0, bs.headD 0)
  | [], _, h, _ => absurd rfl h
  | _ :: _, [], _, h => absurd rfl h
  | _ :: _, _ :: _, _, _ => rfl

/-- `amin` agrees with the optional minimum of the list. -/
theorem amin_eq_minD : ∀ x : List ℚ, amin x = (x.min?).getD 0
  | [] => rfl
  | _ :: _ => rfl

/-- `amax` agrees with the optional maximum of the list. -/
theorem amax_eq_maxD : ∀ x : List ℚ, amax x = (x.max?).getD 0
  | [] => rfl
  | _ :: _ => rfl

/-- The recursive trapezoid on the zipped table agrees with the
interval-sum formulation of the specification. -/
theorem trapz_zip_eq : ∀ (x w : List ℚ), trapzP (x.zip w) = trapezoidRule x w
  | [], _ => rfl
  | [_], [] => rfl
  | [_], _ :: _ => rfl
  | _ :: _ :: _, [] => rfl
  | _ :: _ :: _, [_] => rfl
  | a :: b :: t, c :: d :: s => by
    have h1 : trapzP ((a :: b :: t).zip (c :: d :: s)) =
        (b - a) * (c + d) / 2 + trapzP ((b :: t).zip (d :: s)) := rfl
    have h2 : trapezoidRule (a :: b :: t) (c :: d :: s) =
        (b - a) * (c + d) / 2 + trapezoidRule (b :: t) (d :: s) := rfl
    rw [h1, h2, trapz_zip_eq (b :: t) (d :: s)]

/-- C1: for every valid tabulated input (strictly increasing `x` of length
at least two, matching nonnegative `y` with nonzero sum, positive `n`),
every sample returned by the inversion sampler lies between `min x` and
`max x`; moreover a uniform draw below the first normalised CDF entry is
mapped to `x[0]` and a draw above the last entry is mapped to `x[m-1]` by
the monotone interpolation step. -/
theorem inversionSampling_support_clamp
    (x y : List ℚ) (n : ℕ) (us : List ℚ)
    (hxs : List.Sorted (· < ·) x) (hx2 : 2 ≤ x.length)
    (hlen : y.length = x.length)
    (hy : ∀ a ∈ y, 0 ≤ a) (hs : y.sum ≠ 0) (hn : 0 < n) :
    (∀ s ∈ inversionSampling x y n us, amin x ≤ s ∧ s ≤ amax x) ∧
    (∀ u : ℚ, u < (normCDF y).headD 0 → invMap x y u = x.headD 0) ∧
    (∀ u : ℚ, lastD 0 (normCDF y) < u → invMap x y u = lastD 0 x) := by
  have hzlen : ((normCDF y).zip x).length = x.length := by
    rw [List.length_zip, normCDF_length, hlen, min_self]
  have hzne : (normCDF y).zip x ≠ [] := by
    intro h
    rw [h] at hzlen
    simp at hzlen
    omega
  have hFne : normCDF y ≠ [] := by
    intro h
    have hl := normCDF_length y
    rw [h] at hl
    simp at hl
    omega
  have hxne : x ≠ [] := by
    intro h
    rw [h] at hx2
    simp at hx2
  refine ⟨?_, ?_, ?_⟩
  · intro s hsamp
    have hperm := List.perm_insertionSort (fun a b : ℚ => a ≤ b)
      ((us.take n).map (invMap x y))
    have hmem : s ∈ (us.take n).map (invMap x y) := hperm.mem_iff.mp hsamp
    obtain ⟨u, hu, hEq⟩ := List.mem_map.mp hmem
    have hb : ∀ p ∈ (normCDF y).zip x, amin x ≤ p.2 ∧ p.2 ≤ amax x := by
      intro p hp
      obtain ⟨p1, p2⟩ := p
      have hx3 := (List.of_mem_zip hp).2
      exact ⟨amin_le x p2 hx3, le_amax x p2 hx3⟩
    have hbnd := interpP_mem_bounds (amin x) (amax x) u
      ((normCDF y).zip x) hzne hb
    rw [← hEq]
    exact hbnd
  · intro u hu
    have hhead := headD_zip (normCDF y) x hFne hxne
    have hlow : u < (((normCDF y).zip x).headD (0, 0)).1 := by
      rw [hhead]
      exact hu
    have hcl := interpP_lt_head u ((normCDF y).zip x) hzne hlow
    show interpP u ((normCDF y).zip x) = x.headD 0
    rw [hcl, hhead]
  · intro u hu
    have hFs := normCDF_sorted y hy hs
    have hmax := sorted_le_lastD (normCDF y) hFs
    have hall : ∀ p ∈ (normCDF y).zip x, p.1 < u := by
      intro p hp
      obtain ⟨p1, p2⟩ := p
      have h1 := (List.of_mem_zip hp).1
      exact lt_of_le_of_lt (hmax p1 h1) hu
    have h2 := interpP_gt u ((normCDF y).zip x) hzne hall
    have h3 := lastD_zip (normCDF y) x (by rw [normCDF_length, hlen]) hFne
    show interpP u ((normCDF y).zip x) = lastD 0 x
    rw [h2, h3]

/-- Witness for C1 at `x = [0, 1]`, `y = [1, 1]`, `n = 1`, draw `1/2`. -/
theorem inversionSampling_support_clamp_witness :
    (List.Sorted (· < ·) [(0 : ℚ), 1] ∧ (∀ a ∈ [(1 : ℚ), 1], 0 ≤ a) ∧
      [(1 : ℚ), 1].sum ≠ 0) ∧
    ((∀ s ∈ inversionSampling [0, 1] [1, 1] 1 [1/2],
        amin [0, 1] ≤ s ∧ s ≤ amax [0, 1]) ∧
     (∀ u : ℚ, u < (normCDF [1, 1]).headD 0 →
        invMap [0, 1] [1, 1] u = ([(0 : ℚ), 1]).headD 0) ∧
     (∀ u : ℚ, lastD 0 (normCDF [1, 1]) < u →
        invMap [0, 1] [1, 1] u = lastD 0 [(0 : ℚ), 1])) :=
  ⟨⟨by norm_num [List.sorted_cons], by norm_num, by norm_num⟩,
   inversionSampling_support_clamp [0, 1] [1, 1] 1 [1/2]
     (by norm_num [List.sorted_cons]) (by norm_num) (by norm_num)
     (by norm_num) (by norm_num) (by norm_num)⟩

/-- C2: the four-argument importance sampler computes exactly what the
specification describes — trapezoidal `Z`, uniform draws over
`[min x, max x]`, and weights `Z * f(x_k) / w(x_k)` by linear interpolation
of the tables. -/
theorem importanceSampling_matches_spec (x f w : List ℚ) (n : ℕ)
    (us : List ℚ) :
    importanceSampling x f w n us = importanceSampleSpec x f w n us := by
  simp only [importanceSampling, importanceSampleSpec]
  rw [amin_eq_minD, amax_eq_maxD, trapz_zip_eq]

/-- C4: for valid input the internal cumulative table is non-decreasing,
its first entry is nonnegative and its final entry equals one exactly (in
the exact rational arithmetic of this embedding). -/
theorem normCDF_invariants (x y : List ℚ)
    (hxs : List.Sorted (· < ·) x) (hx2 : 2 ≤ x.length)
    (hlen : y.length = x.length)
    (hy : ∀ a ∈ y, 0 ≤ a) (hs : y.sum ≠ 0) :
    List.Sorted (· ≤ ·) (normCDF y) ∧ 0 ≤ (normCDF y).headD 0 ∧
      lastD 0 (normCDF y) = 1 := by
  have hyne : y ≠ [] := by
    intro h
    rw [h] at hs
    exact hs rfl
  refine ⟨normCDF_sorted y hy hs, ?_, normCDF_lastD y hyne hs⟩
  cases y with
  | nil => exact absurd rfl hyne
  | cons a t =>
    have ha : 0 ≤ a := hy a (List.mem_cons_self a t)
    have hpos : 0 < (a :: t).sum := sum_pos_of_nonneg _ hy hs
    have hhead : (normCDF (a :: t)).headD 0 =
        (0 + a) / lastD 0 (cumsum (a :: t)) := rfl
    rw [hhead, cumsum_lastD]
    exact div_nonneg (by linarith) hpos.le

/-- Witness for C4 at `x = [0, 1]`, `y = [1, 3]`. -/
theorem normCDF_invariants_witness :
    (List.Sorted (· < ·) [(0 : ℚ), 1] ∧ (∀ a ∈ [(1 : ℚ), 3], 0 ≤ a) ∧
      [(1 : ℚ), 3].sum ≠ 0) ∧
    (List.Sorted (· ≤ ·) (normCDF [1, 3]) ∧ 0 ≤ (normCDF [1, 3]).headD 0 ∧
      lastD 0 (normCDF [1, 3]) = 1) :=
  ⟨⟨by norm_num [List.sorted_cons], by norm_num, by norm_num⟩,
   normCDF_invariants [0, 1] [1, 3] (by norm_num [List.sorted_cons])
     (by norm_num) (by norm_num) (by norm_num) (by norm_num)⟩

/-- C7: the inversion sampler is deterministic — two calls with identical
inputs and identical random streams return identical outputs. -/
theorem inversionSampling_deterministic (x y : List ℚ) (n : ℕ)
    (us1 us2 : List ℚ) (h : us1 = us2) :
    inversionSampling x y n us1 = inversionSampling x y n us2 := by
  rw [h]

/-- Witness for C7 on a concrete two-draw stream. -/
theorem inversionSampling_deterministic_witness :
    ([(1 : ℚ)/2, 1/4] = [(1 : ℚ)/2, 1/4]) ∧
    inversionSampling [0, 1] [1, 1] 2 [1/2, 1/4] =
      inversionSampling [0, 1] [1, 1] 2 [1/2, 1/4] :=
  ⟨rfl, inversionSampling_deterministic [0, 1] [1, 1] 2 _ _ rfl⟩

/-- C8: the list returned by the inversion sampler is sorted in
non-decreasing order (the `np.argsort` / fancy-indexing step). -/
theorem inversionSampling_sorted (x y : List ℚ) (n : ℕ) (us : List ℚ) :
    List.Sorted (fun a b : ℚ => a ≤ b) (inversionSampling x y n us) :=
  List.sorted_insertionSort _ _

/-- C9: the caller's `x` and `y` buffers are unchanged by the call — in the
buffer-explicit rendering the final buffer contents equal the inputs and
the result is that of the pure sampler. -/
theorem inversionSampling_frame (x y : List ℚ) (n : ℕ) (us : List ℚ) :
    inversionSamplingBuffers x y n us = (inversionSampling x y n us, x, y) :=
  rfl

/-- C10: the five-argument importance sampler never reads its argument
`f` — two calls differing only in `f` return identical samples and
weights. -/
theorem importanceSampling5_ignores_f (x y f1 f2 w : List ℚ) (n : ℕ)
    (us : List ℚ) :
    importanceSampling5 x y f1 w n us = importanceSampling5 x y f2 w n us :=
  rfl

/-- C3 counterexample: with the identically zero density `y = [0, 0]` on
`x = [0, 1]` and one draw, the call returns `ok [1]` — no
DegenerateDistribution or DivisionByZero error is raised (in NumPy the
normalisation `y1 /= 0` silently yields `NaN` entries and samples are still
returned). -/
theorem inversionSamplingE_zero_density_cx :
    inversionSamplingE [0, 1] [0, 0] 1 [1/2] = Except.ok [1] := by
  norm_num [inversionSamplingE, inversionSampling, invMap, normCDF, cumsum,
    cumsumAux, lastD, interpP, List.insertionSort, List.orderedInsert]
  intro h
  exact absurd h (List.cons_ne_nil _ _)

/-- C3 amended: for `y` identically zero (with matching lengths and
nonnegative `n`) the inversion sampler raises no error at all — the
normalisation divides by zero silently and a sample list is returned. -/
theorem inversionSamplingE_zero_density_no_error
    (x y : List ℚ) (n : ℤ) (us : List ℚ)
    (hzero : ∀ a ∈ y, a = 0) (hyne : y ≠ [])
    (hlen : y.length = x.length) (hn : 0 ≤ n) :
    inversionSamplingE x y n us =
      Except.ok (inversionSampling x y n.toNat us) := by
  have hcne : cumsum y ≠ [] := by
    intro h
    have hl := cumsum_length y
    rw [h] at hl
    exact hyne (List.length_eq_zero.mp hl.symm)
  have hlen2 : ¬ ((cumsum y).length ≠ x.length) := by
    rw [cumsum_length y, hlen]
    exact fun hh => hh rfl
  unfold inversionSamplingE
  rw [if_neg hcne, if_neg (not_lt.mpr hn), if_neg hlen2]

/-- Witness for the amended C3 at `x = [0, 1]`, `y = [0, 0]`, `n = 2`. -/
theorem inversionSamplingE_zero_density_no_error_witness :
    ((∀ a ∈ [(0 : ℚ), 0], a = 0) ∧ ([(0 : ℚ), 0] ≠ [])) ∧
    inversionSamplingE [0, 1] [0, 0] 2 [1/2, 3/4] =
      Except.ok (inversionSampling [0, 1] [0, 0] (2 : ℤ).toNat [1/2, 3/4]) :=
  ⟨⟨by norm_num, by simp⟩,
   inversionSamplingE_zero_density_no_error [0, 1] [0, 0] 2 [1/2, 3/4]
     (by norm_num) (by simp) (by simp) (by norm_num)⟩

/-- C5 counterexample: with the non-increasing grid `x = [1, 0]` both
samplers run to completion and return `ok` — no InvalidArgument error is
raised before (or after) the draw is consumed. -/
theorem samplers_no_validation_cx :
    inversionSamplingE [1, 0] [1, 1] 1 [1/2] = Except.ok [1] ∧
    importanceSamplingE [1, 0] [1, 1] [1, 1] 1 [1/2] =
      Except.ok ([1/2], [-1]) := by
  constructor
  · norm_num [inversionSamplingE, inversionSampling, invMap, normCDF, cumsum,
      cumsumAux, lastD, interpP, List.insertionSort, List.orderedInsert]
    intro h
    exact absurd h (List.cons_ne_nil _ _)
  · norm_num [importanceSamplingE, importanceSampling, amin, amax, trapzP,
      interpP, min_def, max_def]
    intro h
    exact absurd h (List.cons_ne_nil _ _)

/-- C5 amended: the samplers perform no input validation of their own.  A
non-increasing `x` (and `n = 0`) is accepted silently and the call returns
`ok`; a negative `n` raises NumPy's `ValueError` from
`np.random.uniform`, not an InvalidArgument check; a length mismatch
raises `ValueError` from `np.interp`, but only after the `n` uniform draws
have been made. -/
theorem samplers_no_fail_fast :
    (∀ (x y : List ℚ) (n : ℤ) (us : List ℚ), ¬ List.Sorted (· < ·) x →
        y ≠ [] → y.length = x.length → 0 ≤ n →
        inversionSamplingE x y n us =
          Except.ok (inversionSampling x y n.toNat us)) ∧
    (∀ (x y : List ℚ) (n : ℤ) (us : List ℚ), y ≠ [] → n < 0 →
        inversionSamplingE x y n us = Except.error NumpyError.valueError) ∧
    (∀ (x y : List ℚ) (n : ℤ) (us : List ℚ), y ≠ [] → 0 ≤ n →
        y.length ≠ x.length →
        inversionSamplingE x y n us = Except.error NumpyError.valueError) := by
  have hcne : ∀ y : List ℚ, y ≠ [] → cumsum y ≠ [] := by
    intro y hyne h
    have hl := cumsum_length y
    rw [h] at hl
    exact hyne (List.length_eq_zero.mp hl.symm)
  refine ⟨?_, ?_, ?_⟩
  · intro x y n us hbad hyne hlen hn
    have hlen2 : ¬ ((cumsum y).length ≠ x.length) := by
      rw [cumsum_length y, hlen]
      exact fun hh => hh rfl
    unfold inversionSamplingE
    rw [if_neg (hcne y hyne), if_neg (not_lt.mpr hn), if_neg hlen2]
  · intro x y n us hyne hn
    unfold inversionSamplingE
    rw [if_neg (hcne y hyne), if_pos hn]
  · intro x y n us hyne hn hmis
    have hlen2 : (cumsum y).length ≠ x.length := by
      rw [cumsum_length y]
      exact hmis
    unfold inversionSamplingE
    rw [if_neg (hcne y hyne), if_neg (not_lt.mpr hn), if_pos hlen2]

/-- Witness for the amended C5: a non-increasing grid with `n = 0` is
accepted, a negative `n` raises `ValueError`, and a length mismatch raises
`ValueError`. -/
theorem samplers_no_fail_fast_witness :
    inversionSamplingE [1, 0] [1, 1] 0 [] = Except.ok [] ∧
    inversionSamplingE [0, 1] [1, 1] (-1) [] =
      Except.error NumpyError.valueError ∧
    inversionSamplingE [0, 1] [1] 1 [] =
      Except.error NumpyError.valueError :=
  ⟨(samplers_no_fail_fast.1 [1, 0] [1, 1] 0 []
      (by norm_num [List.sorted_cons]) (by simp) (by simp) (by norm_num)).trans
    rfl,
   samplers_no_fail_fast.2.1 [0, 1] [1, 1] (-1) [] (by simp) (by norm_num),
   samplers_no_fail_fast.2.2 [0, 1] [1] 1 [] (by simp) (by norm_num) (by simp)⟩

/-- C6 counterexample: with proposal table `w = [0, 1]` and target
`f = [1, 1]` the draw at `x = 0` has interpolated proposal value zero and
target value one, yet the call returns `ok` with a plain weight list — no
DegenerateWeight flag or error is surfaced (in IEEE arithmetic the weight
is `inf`; in this exact embedding the total division renders it as 0). -/
theorem importanceSamplingE_zero_proposal_cx :
    importanceSamplingE [0, 1] [1, 1] [0, 1] 1 [0] =
      Except.ok ([0], [0]) := by
  norm_num [importanceSamplingE, importanceSampling, amin, amax, trapzP,
    interpP, min_def, max_def]
  intro h
  exact absurd h (List.cons_ne_nil _ _)

/-- C6 amended: even when a drawn point has interpolated proposal value
zero and nonzero interpolated target value, the importance sampler raises
no error and returns plain sample and weight lists — the degenerate weight
is produced by the bare division (silently `inf`/`NaN` in NumPy). -/
theorem importanceSamplingE_zero_proposal_no_error
    (x f w : List ℚ) (n : ℤ) (us : List ℚ) (u : ℚ)
    (hx : x ≠ []) (hw : w.length = x.length) (hf : f.length = x.length)
    (hn : 0 ≤ n) (hu : u ∈ us.take n.toNat)
    (hwz : interpP (amin x + (amax x - amin x) * u) (x.zip w) = 0)
    (hfz : interpP (amin x + (amax x - amin x) * u) (x.zip f) ≠ 0) :
    importanceSamplingE x f w n us =
      Except.ok (importanceSampling x f w n.toNat us) := by
  have hw2 : ¬ (w.length ≠ x.length) := by
    rw [hw]
    exact fun hh => hh rfl
  have hf2 : ¬ (f.length ≠ x.length) := by
    rw [hf]
    exact fun hh => hh rfl
  unfold importanceSamplingE
  rw [if_neg hx, if_neg hw2, if_neg (not_lt.mpr hn), if_neg hf2]

/-- Witness for the amended C6 at `x = [0, 2]`, `f = [1, 1]`,
`w = [0, 2]`, draw at the left endpoint. -/
theorem importanceSamplingE_zero_proposal_no_error_witness :
    (interpP (amin [0, 2] + (amax [0, 2] - amin [0, 2]) * 0)
        ([(0 : ℚ), 2].zip [0, 2]) = 0 ∧
     interpP (amin [0, 2] + (amax [0, 2] - amin [0, 2]) * 0)
        ([(0 : ℚ), 2].zip [1, 1]) ≠ 0) ∧
    importanceSamplingE [0, 2] [1, 1] [0, 2] 1 [0] =
      Except.ok (importanceSampling [0, 2] [1, 1] [0, 2] (1 : ℤ).toNat [0]) :=
  ⟨⟨by norm_num [amin, amax, interpP, min_def, max_def],
    by norm_num [amin, amax, interpP, min_def, max_def]⟩,
   importanceSamplingE_zero_proposal_no_error [0, 2] [1, 1] [0, 2] 1 [0] 0
     (by simp) (by simp) (by simp) (by norm_num) (by simp)
     (by norm_num [amin, amax, interpP, min_def, max_def])
     (by norm_num [amin, amax, interpP, min_def, max_def])⟩

end MCAstro
